import Mathlib

/-!
Verification development for the eccentricity-measurement core of the
`gw_eccentricity` repository (module `measureEccentricity/eccDefinition.py`).

The Python source works on numpy float arrays.  The embedding models the
numeric payload by exact rationals (`ℚ`): every branch decision taken by the
source (comparisons, argmin/argmax, filters) is a field-order decision, so the
control flow is captured exactly.  The IEEE-754 double constant `np.pi` used
by the source is embedded as its exact rational value.  Quantities that the
source obtains by taking a square root (mode amplitudes, the eccentricity
formula) are handled either generically over a linear ordered field — so they
can be instantiated at `ℝ` with `Real.sqrt` — or through an explicit
square-root function parameter instantiated with `Real.sqrt` in the theorems.

External library calls of the source (`scipy` spline construction and
evaluation) are not repository code; they enter the model as opaque function
parameters, exactly where the source treats the spline object as a black box.
-/

namespace GwEcc

/-- Exact rational value of the IEEE-754 double `np.pi` used by the source. -/
def np_pi : ℚ := 884279719003555 / 281474976710656

section QuadraticFit

variable {α : Type*} [LinearOrderedField α]

/-- Index of the first occurrence of the maximal element, as `np.argmax`
computes it (index `0` on an empty array is never exercised by the source). -/
def argmaxIdx (xs : List α) : ℕ :=
  (List.range xs.length).foldl
    (fun best i => if xs.getD best 0 < xs.getD i 0 then i else best) 0

/-- Modelled from the spec: `utils.get_peak_via_quadratic_fit` is imported by
`eccDefinition.py` but its module is not part of the sources; the spec
describes it as a quadratic fit to the three samples around the global
maximum of the array, returning the interpolated sub-sample peak location.
The argmax index is clamped to keep the three-point stencil inside the
array. -/
def get_peak_via_quadratic_fit (t y : List α) : α :=
  let i := min (max (argmaxIdx y) 1) (t.length - 2)
  let x0 := t.getD (i - 1) 0
  let x1 := t.getD i 0
  let x2 := t.getD (i + 1) 0
  let y0 := y.getD (i - 1) 0
  let y1 := y.getD i 0
  let y2 := y.getD (i + 1) 0
  let d1 := (y1 - y0) / (x1 - x0)
  let d2 := (y2 - y1) / (x2 - x1)
  let a := (d2 - d1) / (x2 - x0)
  let b := d1 - a * (x0 + x1);
  -b / (2 * a)

/-- Pointwise amplitude `|h|` of a single complex mode given as (re, im)
pairs, with the square root supplied as a function parameter `s`
(instantiated with `Real.sqrt` over `ℝ` in the theorems):
`np.abs(h) = sqrt(re^2 + im^2)`. -/
def mode_amp (s : α → α) (h : List (α × α)) : List α :=
  h.map fun z => s (z.1 * z.1 + z.2 * z.2)

/-- Follows the spec's words (for comparison with the source): the combined
multi-mode amplitude `sqrt(sum over all supplied modes of |h_lm|^2)`,
sampled on the common time grid. -/
def total_amp (s : α → α) (modes : List (List (α × α))) : List α :=
  (List.range (modes.headD []).length).map fun k =>
    s (modes.foldl (fun acc h =>
        acc + ((h.getD k (0, 0)).1 * (h.getD k (0, 0)).1
               + (h.getD k (0, 0)).2 * (h.getD k (0, 0)).2)) 0)

/-- Data of the (l, m) mode in a mode dictionary (association list). -/
def mode_data (hlm : List ((ℕ × ℕ) × List (α × α))) (l m : ℕ) : List (α × α) :=
  ((hlm.find? fun p => decide (p.1 = (l, m))).map Prod.snd).getD []

/-- Time shift applied by `eccDefinition.__init__`: the quadratic-fit peak
time of `amp22 = np.abs(hlm[(2, 2)])`, the amplitude of the (2,2) mode
alone. -/
def init_time_shift (s : α → α) (t : List α)
    (hlm : List ((ℕ × ℕ) × List (α × α))) : α :=
  get_peak_via_quadratic_fit t (mode_amp s (mode_data hlm 2 2))

/-- Follows the spec's words (for comparison with the source): the
quadratic-fit peak time of the combined multi-mode amplitude of all supplied
modes. -/
def spec_multimode_peak_time (s : α → α) (t : List α)
    (hlm : List ((ℕ × ℕ) × List (α × α))) : α :=
  get_peak_via_quadratic_fit t (total_amp s (hlm.map Prod.snd))

/-- Shifted time axis produced by `eccDefinition.__init__`:
`self.t = self.t - get_peak_via_quadratic_fit(self.t, self.amp22)[0]`. -/
def init_shifted_t (s : α → α) (t : List α)
    (hlm : List ((ℕ × ℕ) × List (α × α))) : List α :=
  t.map fun x => x - init_time_shift s t hlm

end QuadraticFit

/-- Waveform state after `__init__`: the (already merger-shifted) time axis,
the unwrapped sign-flipped (2,2) phase, the frequency `omega22`, and the
`num_orbits_to_exclude_before_merger` option (`none` models Python `None`). -/
structure Wave where
  t : List ℚ
  phase22 : List ℚ
  omega22 : List ℚ
  num_orbits_to_exclude_before_merger : Option ℚ

/-- Error taxonomy of the spec, covering the exceptions raised by
`eccDefinition.py` (each Python `raise` site maps to one constructor). -/
inductive EccError where
  | insufficientExtrema
  | ambiguousInput
  | emptyOutputPastTMax
  | emptyOutputBeforeTMin
  | emptyOutput
  | lengthMismatch
  | bracketing
  | indexError
  | nonMonotonicAverage
  | outOfRangeBelow
  | outOfRangeAbove
  deriving DecidableEq

/-- Index of the first occurrence of the minimum of `f` over the list, as
`np.argmin` computes it. -/
def argminIdx (f : ℚ → ℚ) (xs : List ℚ) : ℕ :=
  (List.range xs.length).foldl
    (fun best i => if f (xs.getD i 0) < f (xs.getD best 0) then i else best) 0

/-- Index of the merger sample: `np.argmin(np.abs(self.t))`. -/
def merger_idx (w : Wave) : ℕ := argminIdx (fun x => |x|) w.t

/-- Threshold index used by the merger-proximity trimming in
`interp_extrema`: with `phase22_at_merger = phase22[merger_idx]` and
threshold phase `phase22_at_merger - 4 * np.pi * num_orbits`, it is
`np.argmin(np.abs(phase22 - threshold))` — the sample whose phase is closest
to the threshold. -/
def idx_num_orbit_earlier_than_merger (w : Wave) (n : ℚ) : ℕ :=
  let phase22_at_merger := w.phase22.getD (merger_idx w) 0
  let thr := phase22_at_merger - 4 * np_pi * n
  argminIdx (fun p => |p - thr|) w.phase22

/-- Follows the spec's words (for comparison with the source): the sample
index at/after which the threshold phase is reached, i.e. the least index
whose `phase22` value is at least the threshold (list length if never
reached). -/
def spec_threshold_idx (w : Wave) (n : ℚ) : ℕ :=
  let phase22_at_merger := w.phase22.getD (merger_idx w) 0
  let thr := phase22_at_merger - 4 * np_pi * n
  (((List.range w.phase22.length).find? fun i =>
      decide (thr ≤ w.phase22.getD i 0)).getD w.phase22.length)

/-- Merger-proximity trimming step of `interp_extrema`: when
`num_orbits_to_exclude_before_merger` is not `None`, keep exactly the extrema
whose index satisfies `extrema_idx <= idx_num_orbit_earlier_than_merger`. -/
def trim_extrema_idx (w : Wave) (extrema_idx : List ℕ) : List ℕ :=
  match w.num_orbits_to_exclude_before_merger with
  | none => extrema_idx
  | some n => extrema_idx.filter fun i =>
      decide (i ≤ idx_num_orbit_earlier_than_merger w n)

/-- Times of the trimmed extrema, `self.t[extrema_idx]`. -/
def trimmed_times (w : Wave) (extrema_idx : List ℕ) : List ℚ :=
  (trim_extrema_idx w extrema_idx).map fun i => w.t.getD i 0

/-- Frequencies of the trimmed extrema, `self.omega22[extrema_idx]`. -/
def trimmed_omegas (w : Wave) (extrema_idx : List ℕ) : List ℚ :=
  (trim_extrema_idx w extrema_idx).map fun i => w.omega22.getD i 0

/-- Model of `eccDefinition.interp_extrema`.  The raw extrema indices are a
parameter (the source's `find_extrema` is abstract in the base class), and
the scipy `InterpolatedUnivariateSpline` constructor is the opaque parameter
`spl`, mapping the (time, omega22) data pairs to an interpolant function.
After merger-proximity trimming, at least 2 extrema are required, otherwise
the call raises (spec: `InsufficientExtremaError`). -/
def interp_extrema (spl : List ℚ → List ℚ → ℚ → ℚ) (w : Wave)
    (extrema_idx : List ℕ) : Except EccError ((ℚ → ℚ) × List ℕ) :=
  let idx := trim_extrema_idx w extrema_idx
  if 2 ≤ idx.length then
    Except.ok (spl (trimmed_times w extrema_idx) (trimmed_omegas w extrema_idx),
               idx)
  else
    Except.error EccError.insufficientExtrema

/-- Lower end of the usable reference-time range:
`t_min = max(t_peaks[0], t_troughs[0])`. -/
def t_min_of (t_peaks t_troughs : List ℚ) : ℚ :=
  max (t_peaks.getD 0 0) (t_troughs.getD 0 0)

/-- Upper end of the usable reference-time range:
`t_max = min(t_peaks[-1], t_troughs[-1])`. -/
def t_max_of (t_peaks t_troughs : List ℚ) : ℚ :=
  min (t_peaks.getLastD 0) (t_troughs.getLastD 0)

/-- Largest index `i` with `ts[i] <= x`, as `np.where(ts <= x)[0][-1]`
computes it; `none` models the `IndexError` on an empty selection. -/
def idx_last_le (ts : List ℚ) (x : ℚ) : Option ℕ :=
  ((List.range ts.length).filter fun i => decide (ts.getD i 0 ≤ x)).getLast?

/-- Model of the inner closure `compute_mean_ano` of `measure_ecc`:
locate the last periastron at/before `time` and the next one after it, and
return `2 * pi * (time - t_at_last_peak) / current_period`; `none` models an
out-of-bounds periastron lookup (`IndexError`). -/
def compute_mean_ano (t_peaks : List ℚ) (time : ℚ) : Option ℚ := do
  let idx_at_last_peak ← idx_last_le t_peaks time
  let t_at_last_peak := t_peaks.getD idx_at_last_peak 0
  let t_at_next_peak ← t_peaks[idx_at_last_peak + 1]?
  pure (2 * np_pi * (time - t_at_last_peak) / (t_at_next_peak - t_at_last_peak))

/-- Structural recursion replacing `np.vectorize` over an elementwise
partial computation: all results, or `none` if any element fails. -/
def map_option (f : ℚ → Option ℚ) : List ℚ → Option (List ℚ)
  | [] => some []
  | x :: xs => do
      let y ← f x
      let ys ← map_option f xs
      pure (y :: ys)

/-- Eccentricity formula of `measure_ecc` (arXiv:2101.11798 eq. 4), with the
square root supplied as the function parameter `s` (instantiated with
`Real.sqrt` in the theorems): `(sqrt(wp) - sqrt(wa)) / (sqrt(wp) + sqrt(wa))`. -/
def ecc_formula {R : Type*} [Field R] (s : ℚ → R) (wp wa : ℚ) : R :=
  (s wp - s wa) / (s wp + s wa)

/-- Results of one `measure_ecc` call (arrays are kept as lists; the
source's final scalar collapse of length-one arrays is presentation only). -/
structure EccResult (R : Type*) where
  tref_out : List ℚ
  fref_out : Option (List ℚ)
  ecc_ref : List R
  mean_ano_ref : List ℚ

/-- Tail of `measure_ecc` after `tref_out` has been computed: the emptiness
checks with their distinguishing messages, the bracketing check against the
periastron times, then eccentricity (via the two interpolants `fp`, `fa`)
and mean anomaly.  The extrema-separation and monotonicity diagnostics of the
source only emit warnings and are not modelled. -/
def measure_ecc_tail {R : Type*} [Field R] (s : ℚ → R) (fp fa : ℚ → ℚ)
    (t_peaks t_troughs : List ℚ)
    (tref_in tref_out : List ℚ) (fref_out : Option (List ℚ)) :
    Except EccError (EccResult R) :=
  if tref_out.isEmpty then
    if t_max_of t_peaks t_troughs < tref_in.getLastD 0 then
      Except.error EccError.emptyOutputPastTMax
    else if tref_in.getD 0 0 < t_min_of t_peaks t_troughs then
      Except.error EccError.emptyOutputBeforeTMin
    else
      Except.error EccError.emptyOutput
  else if tref_out.getD 0 0 < t_peaks.getD 0 0
          ∨ t_peaks.getLastD 0 ≤ tref_out.getLastD 0 then
    Except.error EccError.bracketing
  else
    match map_option (compute_mean_ano t_peaks) tref_out with
    | none => Except.error EccError.indexError
    | some mean_ano =>
        Except.ok ⟨tref_out, fref_out,
                   tref_out.map (fun x => ecc_formula s (fp x) (fa x)),
                   mean_ano⟩

/-- Middle stage of `measure_ecc`: filter the reference times to
`tref_in[tref_in < t_max && tref_in >= t_min]`, run the
`len(fref_out) == len(tref_out)` sanity check of the frequency path, and
continue with the tail. -/
def measure_ecc_on_tref {R : Type*} [Field R] (s : ℚ → R) (fp fa : ℚ → ℚ)
    (t_peaks t_troughs : List ℚ) (tref_in : List ℚ)
    (fref_out : Option (List ℚ)) : Except EccError (EccResult R) :=
  let t_max := t_max_of t_peaks t_troughs
  let t_min := t_min_of t_peaks t_troughs
  let tref_out := tref_in.filter fun x => decide (x < t_max ∧ t_min ≤ x)
  match fref_out with
  | some fo =>
      if fo.length = tref_out.length then
        measure_ecc_tail s fp fa t_peaks t_troughs tref_in tref_out fref_out
      else
        Except.error EccError.lengthMismatch
  | none => measure_ecc_tail s fp fa t_peaks t_troughs tref_in tref_out none

/-- Model of `eccDefinition.measure_ecc`.  The spline constructor `spl`, the
raw extrema index lists (abstract `find_extrema`), and — on the frequency
path — the whole `compute_tref_in_and_fref_out_from_fref_in` machinery
(`compute_tref`, built from an averaging method plus a scipy inverse spline)
are opaque parameters.  `tref_in`/`fref_in` are the mutually exclusive
optional inputs; the source checks `(tref_in is not None) + (fref_in is not
None) != 1` after building both interpolants and raises a `KeyError`
(spec: `AmbiguousInputError`). -/
def measure_ecc {R : Type*} [Field R] (spl : List ℚ → List ℚ → ℚ → ℚ)
    (w : Wave) (peaks_raw troughs_raw : List ℕ) (s : ℚ → R)
    (compute_tref : List ℚ → Except EccError (List ℚ × List ℚ))
    (tref_in fref_in : Option (List ℚ)) : Except EccError (EccResult R) :=
  match interp_extrema spl w peaks_raw with
  | Except.error e => Except.error e
  | Except.ok (fp, peaks_location) =>
    match interp_extrema spl w troughs_raw with
    | Except.error e => Except.error e
    | Except.ok (fa, troughs_location) =>
      let t_peaks := peaks_location.map fun i => w.t.getD i 0
      let t_troughs := troughs_location.map fun i => w.t.getD i 0
      match tref_in, fref_in with
      | some _, some _ => Except.error EccError.ambiguousInput
      | none, none => Except.error EccError.ambiguousInput
      | some tr, none =>
          measure_ecc_on_tref s fp fa t_peaks t_troughs tr none
      | none, some fr =>
          match compute_tref fr with
          | Except.error e => Except.error e
          | Except.ok (tr, fo) =>
              measure_ecc_on_tref s fp fa t_peaks t_troughs tr (some fo)

/-- Orbit-averaged frequency over each pair of consecutive extrema of one
type: `(phase22[loc[n+1]] - phase22[loc[n]]) / (t[loc[n+1]] - t[loc[n]])`
(the phase difference is the integral of `omega22` over the orbit). -/
def orbital_averaged_omega22 (w : Wave) (loc : List ℕ) : List ℚ :=
  (List.range (loc.length - 1)).map fun n =>
    (w.phase22.getD (loc.getD (n + 1) 0) 0 - w.phase22.getD (loc.getD n 0) 0)
      / (w.t.getD (loc.getD (n + 1) 0) 0 - w.t.getD (loc.getD n 0) 0)

/-- Midpoints between consecutive extrema of one type:
`(t[loc][1:] + t[loc][:-1]) / 2`. -/
def mid_times (w : Wave) (loc : List ℕ) : List ℚ :=
  (List.range (loc.length - 1)).map fun n =>
    (w.t.getD (loc.getD n 0) 0 + w.t.getD (loc.getD (n + 1) 0) 0) / 2

/-- Boolean strict-increase check: `not any(np.diff(xs) <= 0)`. -/
def strict_incr : List ℚ → Bool
  | [] => true
  | [_] => true
  | x :: y :: rest => decide (x < y) && strict_incr (y :: rest)

/-- Sort key used to model `np.argsort` on the combined average times with
the same permutation applied to the frequency values: the (time, frequency)
pairs are sorted by time. -/
def by_time (u v : ℚ × ℚ) : Prop := u.1 ≤ v.1

instance : DecidableRel by_time := fun u v => inferInstanceAs (Decidable (u.1 ≤ v.1))

instance : IsTotal (ℚ × ℚ) by_time := ⟨fun u v => le_total u.1 v.1⟩

instance : IsTrans (ℚ × ℚ) by_time := ⟨fun _ _ _ h1 h2 => le_trans h1 h2⟩

/-- Model of `compute_orbital_averaged_omega22_at_extrema`: per-type
orbit-averaged frequencies at the pair midpoints, monotonicity checks
(`raise` if any `np.diff <= 0`, spec: `NonMonotonicAverageError`), and the
trough/peak results appended and sorted by time with the frequency values
carried along (the source applies one `np.argsort` permutation to both
arrays; this is modelled by sorting the zipped pairs by time). -/
def compute_orbital_averaged_omega22_at_extrema (w : Wave)
    (peaks_location troughs_location : List ℕ) :
    Except EccError (List ℚ × List ℚ) :=
  let omega22_average_peaks := orbital_averaged_omega22 w peaks_location
  let t_average_peaks := mid_times w peaks_location
  let omega22_average_troughs := orbital_averaged_omega22 w troughs_location
  let t_average_troughs := mid_times w troughs_location
  if ¬ strict_incr omega22_average_peaks then
    Except.error EccError.nonMonotonicAverage
  else if ¬ strict_incr omega22_average_troughs then
    Except.error EccError.nonMonotonicAverage
  else
    let pairs := ((t_average_troughs ++ t_average_peaks).zip
                  (omega22_average_troughs ++ omega22_average_peaks)).insertionSort by_time
    Except.ok (pairs.map Prod.fst, pairs.map Prod.snd)

/-- Model of `eccDefinition.get_fref_out`: keep the input frequencies inside
`[omega22_average[0] / 2 pi, omega22_average[-1] / 2 pi)`; on an empty
result, raise distinguishing the below-minimum case, the above-maximum case
and the residual empty case. -/
def get_fref_out (omega22_average : List ℚ) (fref_in : List ℚ) :
    Except EccError (List ℚ) :=
  let fmin := omega22_average.getD 0 0 / (2 * np_pi)
  let fmax := omega22_average.getLastD 0 / (2 * np_pi)
  let fref_out := fref_in.filter fun f => decide (fmin ≤ f ∧ f < fmax)
  if fref_out.isEmpty then
    if fref_in.getD 0 0 < fmin then
      Except.error EccError.outOfRangeBelow
    else if fmax < fref_in.getLastD 0 then
      Except.error EccError.outOfRangeAbove
    else
      Except.error EccError.emptyOutput
  else
    Except.ok fref_out

/-! ## Basic characterizations -/

/-- Unfolding lemma for `interp_extrema`. -/
theorem interp_extrema_eq (spl : List ℚ → List ℚ → ℚ → ℚ) (w : Wave)
    (extrema_idx : List ℕ) :
    interp_extrema spl w extrema_idx =
      if 2 ≤ (trim_extrema_idx w extrema_idx).length then
        Except.ok (spl (trimmed_times w extrema_idx)
                       (trimmed_omegas w extrema_idx),
                   trim_extrema_idx w extrema_idx)
      else Except.error EccError.insufficientExtrema := rfl

/-- Concrete wave used to exhibit that an extremum exactly at the trimming
threshold index is retained. -/
def wC2a : Wave :=
  Wave.mk [-2, -1, 0, 1, 2]
          [100 - 8 * np_pi, 100 - 4 * np_pi, 100, 101, 102]
          [0, 0, 0, 0, 0] (some 1)

/-- Concrete wave on which the trimming threshold index (the sample whose
phase is nearest the threshold) differs from the first sample at/after which
the threshold phase is reached. -/
def wC2b : Wave :=
  Wave.mk [-2, -1, 0, 1, 2]
          [100 - 4 * np_pi - 10, 100 - 4 * np_pi - 1, 100, 101, 102]
          [0, 0, 0, 0, 0] (some 1)

/-- Claim C2 counterexample: on `wC2a` the threshold index is sample 1 and
the extremum with index 1 — equal to the threshold index — is retained by
`interp_extrema`'s trimming, contradicting that all extrema at or after the
threshold index are discarded; and on `wC2b` the source's threshold index
(argmin of `|phase22 - threshold|`, here a sample whose phase is still below
the threshold) is not the index at/after which the threshold phase is
reached. -/
theorem c2_counterexample :
    (idx_num_orbit_earlier_than_merger wC2a 1 = 1
      ∧ 1 ∈ trim_extrema_idx wC2a [0, 1]
      ∧ trim_extrema_idx wC2a [0, 1] = [0, 1])
    ∧ (idx_num_orbit_earlier_than_merger wC2b 1 = 1
      ∧ spec_threshold_idx wC2b 1 = 2
      ∧ idx_num_orbit_earlier_than_merger wC2b 1 ≠ spec_threshold_idx wC2b 1) := by
  have ha : idx_num_orbit_earlier_than_merger wC2a 1 = 1 := by
    norm_num [idx_num_orbit_earlier_than_merger, merger_idx, argminIdx, wC2a,
      List.range_succ, np_pi, abs]
  have hb : idx_num_orbit_earlier_than_merger wC2b 1 = 1 := by
    norm_num [idx_num_orbit_earlier_than_merger, merger_idx, argminIdx, wC2b,
      List.range_succ, np_pi, abs]
  have hs : spec_threshold_idx wC2b 1 = 2 := by
    norm_num [spec_threshold_idx, merger_idx, argminIdx, wC2b,
      List.range_succ, np_pi, abs, List.find?]
  have ht : trim_extrema_idx wC2a [0, 1] = [0, 1] := by
    unfold trim_extrema_idx
    rw [show wC2a.num_orbits_to_exclude_before_merger = some 1 from rfl]
    simp [ha]
  exact ⟨⟨ha, by rw [ht]; simp, ht⟩, hb, hs, by rw [hb, hs]; omega⟩

/-- Claim C2 (amended): when `num_orbits_to_exclude_before_merger` is set,
the phase threshold is the phase at the merger sample minus `4 * pi` times
the orbit count, the threshold sample index is the sample minimizing
`|phase22 - threshold|`, and exactly the extrema with index strictly after
that threshold index are discarded: every retained extremum index is at most
the threshold index. -/
theorem c2_trim_keeps_indices_up_to_threshold (w : Wave) (extrema_idx : List ℕ)
    (n : ℚ) (h : w.num_orbits_to_exclude_before_merger = some n) :
    trim_extrema_idx w extrema_idx
      = extrema_idx.filter (fun i =>
          decide (i ≤ idx_num_orbit_earlier_than_merger w n))
    ∧ ∀ i ∈ trim_extrema_idx w extrema_idx,
        i ≤ idx_num_orbit_earlier_than_merger w n := by
  have he : trim_extrema_idx w extrema_idx
      = extrema_idx.filter (fun i =>
          decide (i ≤ idx_num_orbit_earlier_than_merger w n)) := by
    unfold trim_extrema_idx
    rw [h]
  refine ⟨he, ?_⟩
  intro i hi
  rw [he] at hi
  simpa using (List.mem_filter.mp hi).2

/-- Witness for C2's amended theorem at a concrete wave. -/
theorem c2_witness :
    wC2a.num_orbits_to_exclude_before_merger = some 1
    ∧ trim_extrema_idx wC2a [0, 3]
      = [0, 3].filter (fun i =>
          decide (i ≤ idx_num_orbit_earlier_than_merger wC2a 1)) :=
  ⟨rfl, (c2_trim_keeps_indices_up_to_threshold wC2a [0, 3] 1 rfl).1⟩

/-- Claim C7: `interp_extrema` fails (spec: `InsufficientExtremaError`)
exactly when fewer than 2 extrema survive the merger-proximity trimming;
with at least 2 it returns the interpolant built through the (time, omega22)
pairs at the trimmed extrema, together with the trimmed index sequence. -/
theorem c7_interp_extrema_insufficient_iff (spl : List ℚ → List ℚ → ℚ → ℚ)
    (w : Wave) (extrema_idx : List ℕ) :
    (interp_extrema spl w extrema_idx = Except.error EccError.insufficientExtrema
      ↔ (trim_extrema_idx w extrema_idx).length < 2)
    ∧ (2 ≤ (trim_extrema_idx w extrema_idx).length →
        interp_extrema spl w extrema_idx
          = Except.ok (spl (trimmed_times w extrema_idx)
                           (trimmed_omegas w extrema_idx),
                       trim_extrema_idx w extrema_idx)) := by
  rw [interp_extrema_eq]
  by_cases h : 2 ≤ (trim_extrema_idx w extrema_idx).length
  · rw [if_pos h]
    refine ⟨?_, fun _ => rfl⟩
    simp
    omega
  · rw [if_neg h]
    refine ⟨?_, fun h2 => absurd h2 h⟩
    simp
    omega

/-- Wave with trivial trimming used by several witnesses. -/
def wPlain : Wave := Wave.mk [0, 1, 2, 3] [0, 0, 0, 0] [1, 1, 1, 1] none

/-- Witness for C7 at a concrete wave: two extrema survive and the
interpolant through their (time, omega22) pairs is returned. -/
theorem c7_witness :
    interp_extrema (fun _ _ x => x) wPlain [0, 2]
      = Except.ok ((fun x => x),
                   trim_extrema_idx wPlain [0, 2]) :=
  (c7_interp_extrema_insufficient_iff (fun _ _ x => x) wPlain [0, 2]).2
    (by simp [trim_extrema_idx, wPlain])

/-! ## Helper lemmas about list access and the periastron lookup -/

/-- getLastD of a nonempty list is its entry at index `length - 1`. -/
theorem getLastD_eq_getD_last {l : List ℚ} (h : l ≠ []) :
    l.getLastD 0 = l.getD (l.length - 1) 0 := by
  have hl : 0 < l.length := List.length_pos.mpr h
  have h1 : l.length - 1 < l.length := by omega
  rw [List.getLastD_eq_getLast?, List.getLast?_eq_getElem?,
      List.getD_eq_getElem l 0 h1, List.getElem?_eq_getElem h1]
  rfl

/-- getD of a nonempty list at index 0 is a member. -/
theorem getD_zero_mem {l : List ℚ} (h : l ≠ []) : l.getD 0 0 ∈ l := by
  have hl : 0 < l.length := List.length_pos.mpr h
  rw [List.getD_eq_getElem l 0 hl]
  exact List.getElem_mem hl

/-- getLastD of a nonempty list is a member. -/
theorem getLastD_mem_of_ne_nil {l : List ℚ} (h : l ≠ []) : l.getLastD 0 ∈ l := by
  have h1 : l.length - 1 < l.length := by
    have := List.length_pos.mpr h
    omega
  rw [getLastD_eq_getD_last h, List.getD_eq_getElem l 0 h1]
  exact List.getElem_mem h1

/-- In a list that is pairwise strictly increasing, every member is at most
the last element. -/
theorem le_getLast_of_pairwise_lt {l : List ℕ}
    (hs : l.Pairwise (· < ·)) {a : ℕ} (ha : a ∈ l) {b : ℕ}
    (hb : l.getLast? = some b) : a ≤ b := by
  induction l with
  | nil => cases ha
  | cons x xs ih =>
    cases xs with
    | nil =>
      simp at hb ha
      omega
    | cons y ys =>
      rw [List.getLast?_cons_cons] at hb
      rcases List.mem_cons.mp ha with h1 | h1
      · subst h1
        have hbmem : b ∈ y :: ys := by
          have : (y :: ys) ≠ [] := by simp
          rcases List.getLast?_eq_getElem? (y :: ys) ▸ hb with h2
          rcases List.getElem?_eq_some_iff.mp h2 with ⟨hlt, hget⟩
          exact hget ▸ List.getElem_mem hlt
        have := (List.pairwise_cons.mp hs).1 b hbmem
        omega
      · exact ih (List.pairwise_cons.mp hs).2 h1 hb

/-- Characterization of `idx_last_le`: a successful lookup returns an
in-bounds index whose entry is at most `x`, maximal among all such. -/
theorem idx_last_le_spec {ts : List ℚ} {x : ℚ} {j : ℕ}
    (h : idx_last_le ts x = some j) :
    j < ts.length ∧ ts.getD j 0 ≤ x
      ∧ ∀ k, k < ts.length → ts.getD k 0 ≤ x → k ≤ j := by
  unfold idx_last_le at h
  set F := (List.range ts.length).filter (fun i => decide (ts.getD i 0 ≤ x)) with hF
  have hmem : j ∈ F := by
    rcases List.getLast?_eq_getElem? F ▸ h with h2
    rcases List.getElem?_eq_some_iff.mp h2 with ⟨hlt, hget⟩
    exact hget ▸ List.getElem_mem hlt
  have hj := List.mem_filter.mp hmem
  have hjr := List.mem_range.mp hj.1
  have hjx : ts.getD j 0 ≤ x := by simpa using hj.2
  refine ⟨hjr, hjx, fun k hk hkx => ?_⟩
  have hkF : k ∈ F := List.mem_filter.mpr ⟨List.mem_range.mpr hk, by simpa using hkx⟩
  have hFs : F.Pairwise (· < ·) :=
    List.Pairwise.filter _ (List.pairwise_lt_range ts.length)
  exact le_getLast_of_pairwise_lt hFs hkF h

/-- `idx_last_le` succeeds whenever the first entry is at most `x`. -/
theorem idx_last_le_isSome {ts : List ℚ} {x : ℚ} (hne : ts ≠ [])
    (h0 : ts.getD 0 0 ≤ x) : ∃ j, idx_last_le ts x = some j := by
  unfold idx_last_le
  set F := (List.range ts.length).filter (fun i => decide (ts.getD i 0 ≤ x)) with hF
  have h0F : 0 ∈ F := by
    refine List.mem_filter.mpr ⟨List.mem_range.mpr (List.length_pos.mpr hne), by simpa using h0⟩
  have hFne : F ≠ [] := fun hnil => by simp [hnil] at h0F
  rcases List.getLast?_eq_getLast F hFne ▸ Option.isSome_some with _
  exact ⟨F.getLast hFne, List.getLast?_eq_getLast F hFne⟩

/-- Full behaviour of `compute_mean_ano` on a time bracketed by the
first and last periastron times: the lookup succeeds, the bracketing pair
satisfies `t_peaks[j] <= x < t_peaks[j+1]`, `j` is the last periastron
at/before `x`, and the returned value is the linear phase formula. -/
theorem compute_mean_ano_spec {t_peaks : List ℚ} {x : ℚ}
    (hne : t_peaks ≠ []) (h0 : t_peaks.getD 0 0 ≤ x)
    (h1 : x < t_peaks.getLastD 0) :
    ∃ j, j + 1 < t_peaks.length
      ∧ t_peaks.getD j 0 ≤ x ∧ x < t_peaks.getD (j + 1) 0
      ∧ (∀ k, k < t_peaks.length → t_peaks.getD k 0 ≤ x → k ≤ j)
      ∧ compute_mean_ano t_peaks x
          = some (2 * np_pi * (x - t_peaks.getD j 0)
                  / (t_peaks.getD (j + 1) 0 - t_peaks.getD j 0)) := by
  rcases idx_last_le_isSome hne h0 with ⟨j, hj⟩
  rcases idx_last_le_spec hj with ⟨hjlt, hjle, hjmax⟩
  have hlast : j + 1 < t_peaks.length := by
    rcases Nat.lt_or_ge (j + 1) t_peaks.length with h | h
    · exact h
    · exfalso
      have hjeq : j = t_peaks.length - 1 := by omega
      rw [getLastD_eq_getD_last hne, ← hjeq] at h1
      exact absurd hjle (not_le.mpr h1)
  have hx1 : x < t_peaks.getD (j + 1) 0 := by
    by_contra hcon
    have := hjmax (j + 1) hlast (not_lt.mp hcon)
    omega
  refine ⟨j, hlast, hjle, hx1, hjmax, ?_⟩
  have hget : t_peaks[j + 1]? = some (t_peaks.getD (j + 1) 0) := by
    rw [List.getD_eq_getElem t_peaks 0 hlast]
    exact List.getElem?_eq_getElem hlast
  unfold compute_mean_ano
  rw [hj]
  simp only [Option.bind_eq_bind, Option.some_bind]
  rw [hget]
  simp only [Option.some_bind, Option.pure_def]

/-- `map_option` succeeds iff `f` succeeds on every element; the result is
then pointwise determined. -/
theorem map_option_eq_some {f : ℚ → Option ℚ} {l : List ℚ}
    (h : ∀ x ∈ l, ∃ y, f x = some y) : ∃ res, map_option f l = some res := by
  induction l with
  | nil => exact ⟨[], rfl⟩
  | cons a l ih =>
    rcases h a (List.mem_cons_self a l) with ⟨y, hy⟩
    rcases ih (fun x hx => h x (List.mem_cons_of_mem a hx)) with ⟨res, hres⟩
    exact ⟨y :: res, by simp [map_option, hy, hres]⟩

/-- Pointwise content of a successful `map_option`. -/
theorem map_option_eq_some_forall {f : ℚ → Option ℚ} {l : List ℚ} {res : List ℚ}
    (h : map_option f l = some res) :
    res.length = l.length
      ∧ ∀ i, i < l.length → f (l.getD i 0) = some (res.getD i 0) := by
  induction l generalizing res with
  | nil =>
    simp [map_option] at h
    subst h
    exact ⟨rfl, fun i hi => absurd hi (by simp)⟩
  | cons a l ih =>
    simp only [map_option, Option.bind_eq_bind] at h
    cases hfa : f a with
    | none => rw [hfa] at h; simp at h
    | some y =>
      rw [hfa] at h
      simp only [Option.some_bind] at h
      cases hml : map_option f l with
      | none => rw [hml] at h; simp at h
      | some ys =>
        rw [hml] at h
        simp only [Option.some_bind, Option.pure_def, Option.some_inj] at h
        subst h
        rcases ih hml with ⟨hlen, hpt⟩
        refine ⟨by simp [hlen], fun i hi => ?_⟩
        cases i with
        | zero => simpa using hfa
        | succ k =>
          have hk : k < l.length := by simpa using hi
          simpa using hpt k hk

/-! ## Stage lemmas for measure_ecc -/

/-- Filter defining `tref_out` from the candidate reference times. -/
def tref_filter (t_peaks t_troughs : List ℚ) (tref_in : List ℚ) : List ℚ :=
  tref_in.filter fun x =>
    decide (x < t_max_of t_peaks t_troughs ∧ t_min_of t_peaks t_troughs ≤ x)

theorem measure_ecc_on_tref_none_eq {R : Type*} [Field R] (s : ℚ → R)
    (fp fa : ℚ → ℚ) (t_peaks t_troughs tref_in : List ℚ) :
    measure_ecc_on_tref s fp fa t_peaks t_troughs tref_in none
      = measure_ecc_tail s fp fa t_peaks t_troughs tref_in
          (tref_filter t_peaks t_troughs tref_in) none := rfl

theorem measure_ecc_on_tref_some_eq {R : Type*} [Field R] (s : ℚ → R)
    (fp fa : ℚ → ℚ) (t_peaks t_troughs tref_in fo : List ℚ) :
    measure_ecc_on_tref s fp fa t_peaks t_troughs tref_in (some fo)
      = if fo.length = (tref_filter t_peaks t_troughs tref_in).length then
          measure_ecc_tail s fp fa t_peaks t_troughs tref_in
            (tref_filter t_peaks t_troughs tref_in) (some fo)
        else Except.error EccError.lengthMismatch := rfl

theorem measure_ecc_err_peaks {R : Type*} [Field R]
    (spl : List ℚ → List ℚ → ℚ → ℚ) (w : Wave) (p a : List ℕ) (s : ℚ → R)
    (ct : List ℚ → Except EccError (List ℚ × List ℚ))
    (trefIn frefIn : Option (List ℚ))
    (hnp : ¬ 2 ≤ (trim_extrema_idx w p).length) :
    measure_ecc spl w p a s ct trefIn frefIn
      = Except.error EccError.insufficientExtrema := by
  unfold measure_ecc
  rw [interp_extrema_eq, if_neg hnp]

theorem measure_ecc_err_troughs {R : Type*} [Field R]
    (spl : List ℚ → List ℚ → ℚ → ℚ) (w : Wave) (p a : List ℕ) (s : ℚ → R)
    (ct : List ℚ → Except EccError (List ℚ × List ℚ))
    (trefIn frefIn : Option (List ℚ))
    (hp : 2 ≤ (trim_extrema_idx w p).length)
    (hna : ¬ 2 ≤ (trim_extrema_idx w a).length) :
    measure_ecc spl w p a s ct trefIn frefIn
      = Except.error EccError.insufficientExtrema := by
  unfold measure_ecc
  rw [interp_extrema_eq, if_pos hp, interp_extrema_eq, if_neg hna]

theorem measure_ecc_some_some {R : Type*} [Field R]
    (spl : List ℚ → List ℚ → ℚ → ℚ) (w : Wave) (p a : List ℕ) (s : ℚ → R)
    (ct : List ℚ → Except EccError (List ℚ × List ℚ)) (tr fr : List ℚ)
    (hp : 2 ≤ (trim_extrema_idx w p).length)
    (ha : 2 ≤ (trim_extrema_idx w a).length) :
    measure_ecc spl w p a s ct (some tr) (some fr)
      = Except.error EccError.ambiguousInput := by
  unfold measure_ecc
  rw [interp_extrema_eq, if_pos hp, interp_extrema_eq, if_pos ha]

theorem measure_ecc_none_none {R : Type*} [Field R]
    (spl : List ℚ → List ℚ → ℚ → ℚ) (w : Wave) (p a : List ℕ) (s : ℚ → R)
    (ct : List ℚ → Except EccError (List ℚ × List ℚ))
    (hp : 2 ≤ (trim_extrema_idx w p).length)
    (ha : 2 ≤ (trim_extrema_idx w a).length) :
    measure_ecc spl w p a s ct none none
      = Except.error EccError.ambiguousInput := by
  unfold measure_ecc
  rw [interp_extrema_eq, if_pos hp, interp_extrema_eq, if_pos ha]

theorem measure_ecc_some_none {R : Type*} [Field R]
    (spl : List ℚ → List ℚ → ℚ → ℚ) (w : Wave) (p a : List ℕ) (s : ℚ → R)
    (ct : List ℚ → Except EccError (List ℚ × List ℚ)) (tr : List ℚ)
    (hp : 2 ≤ (trim_extrema_idx w p).length)
    (ha : 2 ≤ (trim_extrema_idx w a).length) :
    measure_ecc spl w p a s ct (some tr) none
      = measure_ecc_on_tref s
          (spl (trimmed_times w p) (trimmed_omegas w p))
          (spl (trimmed_times w a) (trimmed_omegas w a))
          (trimmed_times w p) (trimmed_times w a) tr none := by
  unfold measure_ecc
  rw [interp_extrema_eq, if_pos hp, interp_extrema_eq, if_pos ha]
  rfl

theorem measure_ecc_none_some_err {R : Type*} [Field R]
    (spl : List ℚ → List ℚ → ℚ → ℚ) (w : Wave) (p a : List ℕ) (s : ℚ → R)
    (ct : List ℚ → Except EccError (List ℚ × List ℚ)) (fr : List ℚ)
    (e : EccError)
    (hp : 2 ≤ (trim_extrema_idx w p).length)
    (ha : 2 ≤ (trim_extrema_idx w a).length)
    (hct : ct fr = Except.error e) :
    measure_ecc spl w p a s ct none (some fr) = Except.error e := by
  unfold measure_ecc
  rw [interp_extrema_eq, if_pos hp, interp_extrema_eq, if_pos ha]
  show (match ct fr with
        | Except.error e => Except.error e
        | Except.ok (tr, fo) => measure_ecc_on_tref s
            (spl (trimmed_times w p) (trimmed_omegas w p))
            (spl (trimmed_times w a) (trimmed_omegas w a))
            (trimmed_times w p) (trimmed_times w a) tr (some fo)) = _
  rw [hct]

theorem measure_ecc_none_some_ok {R : Type*} [Field R]
    (spl : List ℚ → List ℚ → ℚ → ℚ) (w : Wave) (p a : List ℕ) (s : ℚ → R)
    (ct : List ℚ → Except EccError (List ℚ × List ℚ)) (fr tr fo : List ℚ)
    (hp : 2 ≤ (trim_extrema_idx w p).length)
    (ha : 2 ≤ (trim_extrema_idx w a).length)
    (hct : ct fr = Except.ok (tr, fo)) :
    measure_ecc spl w p a s ct none (some fr)
      = measure_ecc_on_tref s
          (spl (trimmed_times w p) (trimmed_omegas w p))
          (spl (trimmed_times w a) (trimmed_omegas w a))
          (trimmed_times w p) (trimmed_times w a) tr (some fo) := by
  unfold measure_ecc
  rw [interp_extrema_eq, if_pos hp, interp_extrema_eq, if_pos ha]
  show (match ct fr with
        | Except.error e => Except.error e
        | Except.ok (tr, fo) => measure_ecc_on_tref s
            (spl (trimmed_times w p) (trimmed_omegas w p))
            (spl (trimmed_times w a) (trimmed_omegas w a))
            (trimmed_times w p) (trimmed_times w a) tr (some fo)) = _
  rw [hct]

/-- Dissection of a successful run of the tail stage. -/
theorem measure_ecc_tail_ok {R : Type*} [Field R] {s : ℚ → R} {fp fa : ℚ → ℚ}
    {t_peaks t_troughs tref_in tout : List ℚ} {fo : Option (List ℚ)}
    {r : EccResult R}
    (h : measure_ecc_tail s fp fa t_peaks t_troughs tref_in tout fo
          = Except.ok r) :
    r.tref_out = tout ∧ r.fref_out = fo
      ∧ r.ecc_ref = tout.map (fun x => ecc_formula s (fp x) (fa x))
      ∧ map_option (compute_mean_ano t_peaks) tout = some r.mean_ano_ref
      ∧ tout ≠ [] := by
  unfold measure_ecc_tail at h
  by_cases he : tout.isEmpty
  · rw [if_pos he] at h
    split_ifs at h
  · rw [if_neg he] at h
    split at h
    · exact absurd h (by simp)
    · split at h
      · exact absurd h (by simp)
      · rename_i ma hma
        have hr := Except.ok.inj h
        subst hr
        exact ⟨rfl, rfl, rfl, hma, List.isEmpty_iff.not.mp he⟩

/-- Elements of the reference-time filter satisfy its bounds. -/
theorem mem_tref_filter {t_peaks t_troughs tref_in : List ℚ} {x : ℚ}
    (hx : x ∈ tref_filter t_peaks t_troughs tref_in) :
    x < t_max_of t_peaks t_troughs ∧ t_min_of t_peaks t_troughs ≤ x := by
  have := (List.mem_filter.mp hx).2
  simpa using this

/-- Core safety fact: on a `tref_out` produced by the reference-time filter,
the tail stage can raise neither the bracketing error nor an out-of-bounds
periastron lookup. -/
theorem measure_ecc_tail_safety {R : Type*} [Field R] (s : ℚ → R)
    (fp fa : ℚ → ℚ) (t_peaks t_troughs tref_in : List ℚ)
    (fo : Option (List ℚ)) :
    measure_ecc_tail s fp fa t_peaks t_troughs tref_in
        (tref_filter t_peaks t_troughs tref_in) fo
      ≠ Except.error EccError.bracketing
    ∧ measure_ecc_tail s fp fa t_peaks t_troughs tref_in
        (tref_filter t_peaks t_troughs tref_in) fo
      ≠ Except.error EccError.indexError := by
  set tout := tref_filter t_peaks t_troughs tref_in with htout
  unfold measure_ecc_tail
  by_cases he : tout.isEmpty
  · rw [if_pos he]
    constructor <;> split_ifs <;> simp
  · rw [if_neg he]
    have hne : tout ≠ [] := List.isEmpty_iff.not.mp he
    -- bounds satisfied by every element of tout
    have hbnd : ∀ x ∈ tout, x < t_max_of t_peaks t_troughs
        ∧ t_min_of t_peaks t_troughs ≤ x := fun x hx => mem_tref_filter hx
    -- the periastron list is nonempty
    have hpne : t_peaks ≠ [] := by
      intro hnil
      rcases hbnd (tout.getD 0 0) (getD_zero_mem hne) with ⟨hlt, hge⟩
      have h1 : t_max_of t_peaks t_troughs ≤ 0 := by
        rw [t_max_of, hnil]
        exact min_le_of_left_le (le_of_eq rfl)
      have h2 : (0 : ℚ) ≤ t_min_of t_peaks t_troughs := by
        rw [t_min_of, hnil]
        exact le_max_left _ _
      linarith
    -- the bracketing condition is false
    have hcond : ¬ (tout.getD 0 0 < t_peaks.getD 0 0
        ∨ t_peaks.getLastD 0 ≤ tout.getLastD 0) := by
      push_neg
      constructor
      · rcases hbnd (tout.getD 0 0) (getD_zero_mem hne) with ⟨_, hge⟩
        have : t_peaks.getD 0 0 ≤ t_min_of t_peaks t_troughs := le_max_left _ _
        linarith
      · rcases hbnd (tout.getLastD 0) (getLastD_mem_of_ne_nil hne) with ⟨hlt, _⟩
        have : t_max_of t_peaks t_troughs ≤ t_peaks.getLastD 0 := min_le_left _ _
        linarith
    rw [if_neg hcond]
    -- every mean-anomaly lookup succeeds
    have hsome : ∀ x ∈ tout, ∃ y, compute_mean_ano t_peaks x = some y := by
      intro x hx
      rcases hbnd x hx with ⟨hlt, hge⟩
      have h0 : t_peaks.getD 0 0 ≤ x :=
        le_trans (le_max_left _ _) hge
      have h1 : x < t_peaks.getLastD 0 :=
        lt_of_lt_of_le hlt (min_le_left _ _)
      rcases compute_mean_ano_spec hpne h0 h1 with ⟨j, _, _, _, _, hval⟩
      exact ⟨_, hval⟩
    rcases map_option_eq_some hsome with ⟨res, hres⟩
    rw [hres]
    constructor <;> simp

/-- The tail stage never reports the ambiguous-input error. -/
theorem measure_ecc_tail_ne_ambiguous {R : Type*} [Field R] (s : ℚ → R)
    (fp fa : ℚ → ℚ) (t_peaks t_troughs tref_in tout : List ℚ)
    (fo : Option (List ℚ)) :
    measure_ecc_tail s fp fa t_peaks t_troughs tref_in tout fo
      ≠ Except.error EccError.ambiguousInput := by
  unfold measure_ecc_tail
  split
  · split_ifs <;> simp
  · split
    · simp
    · split <;> simp

/-- The on-tref stage never reports the ambiguous-input error. -/
theorem measure_ecc_on_tref_ne_ambiguous {R : Type*} [Field R] (s : ℚ → R)
    (fp fa : ℚ → ℚ) (t_peaks t_troughs tref_in : List ℚ)
    (fo : Option (List ℚ)) :
    measure_ecc_on_tref s fp fa t_peaks t_troughs tref_in fo
      ≠ Except.error EccError.ambiguousInput := by
  cases fo with
  | none =>
    rw [measure_ecc_on_tref_none_eq]
    exact measure_ecc_tail_ne_ambiguous _ _ _ _ _ _ _ _
  | some fl =>
    rw [measure_ecc_on_tref_some_eq]
    split_ifs
    · exact measure_ecc_tail_ne_ambiguous _ _ _ _ _ _ _ _
    · simp

/-- Claim C10: for all inputs, the bracketing-failure branch of
`measure_ecc` ("Reference time must be within two peaks.") is unreachable,
and the periastron lookups of the mean-anomaly computation are always within
bounds (no `IndexError`): `tref_out` elements lie in `[t_min, t_max)` with
`t_min` at least the first periastron time and `t_max` at most the last, so
a bracketing periastron pair always exists.  The opaque frequency-conversion
machinery is only assumed not to raise these two errors itself. -/
theorem c10_bracketing_unreachable {R : Type*} [Field R]
    (spl : List ℚ → List ℚ → ℚ → ℚ) (w : Wave) (p a : List ℕ) (s : ℚ → R)
    (ct : List ℚ → Except EccError (List ℚ × List ℚ))
    (trefIn frefIn : Option (List ℚ))
    (hct : ∀ fr, ct fr ≠ Except.error EccError.bracketing
                 ∧ ct fr ≠ Except.error EccError.indexError) :
    measure_ecc spl w p a s ct trefIn frefIn
      ≠ Except.error EccError.bracketing
    ∧ measure_ecc spl w p a s ct trefIn frefIn
      ≠ Except.error EccError.indexError := by
  by_cases hp : 2 ≤ (trim_extrema_idx w p).length
  · by_cases ha : 2 ≤ (trim_extrema_idx w a).length
    · cases trefIn with
      | some tr =>
        cases frefIn with
        | some fr =>
          rw [measure_ecc_some_some spl w p a s ct tr fr hp ha]
          constructor <;> simp
        | none =>
          rw [measure_ecc_some_none spl w p a s ct tr hp ha,
              measure_ecc_on_tref_none_eq]
          exact measure_ecc_tail_safety s _ _ _ _ tr none
      | none =>
        cases frefIn with
        | none =>
          rw [measure_ecc_none_none spl w p a s ct hp ha]
          constructor <;> simp
        | some fr =>
          cases hctf : ct fr with
          | error e =>
            rw [measure_ecc_none_some_err spl w p a s ct fr e hp ha hctf]
            have := hct fr
            rw [hctf] at this
            have he1 : e ≠ EccError.bracketing := by
              intro hh
              exact this.1 (by rw [hh])
            have he2 : e ≠ EccError.indexError := by
              intro hh
              exact this.2 (by rw [hh])
            constructor <;> simp [he1, he2]
          | ok pr =>
            rw [measure_ecc_none_some_ok spl w p a s ct fr pr.1 pr.2 hp ha
                  (by rw [hctf])]
            rw [measure_ecc_on_tref_some_eq]
            split_ifs
            · exact measure_ecc_tail_safety s _ _ _ _ pr.1 (some pr.2)
            · constructor <;> simp
    · rw [measure_ecc_err_troughs spl w p a s ct trefIn frefIn hp ha]
      constructor <;> simp
  · rw [measure_ecc_err_peaks spl w p a s ct trefIn frefIn hp]
    constructor <;> simp

/-- Witness for C10 with a trivial frequency-conversion parameter. -/
theorem c10_witness :
    measure_ecc (R := ℚ) (fun _ _ x => x) wPlain [1, 3] [0, 2] (fun q => q)
        (fun _ => Except.error EccError.emptyOutput) (some [1]) none
      ≠ Except.error EccError.bracketing :=
  (c10_bracketing_unreachable (fun _ _ x => x) wPlain [1, 3] [0, 2]
    (fun q => q) (fun _ => Except.error EccError.emptyOutput) (some [1]) none
    (fun _ => by constructor <;> simp)).1

/-- Claim C5: `measure_ecc` raises the mutual-exclusion error (`KeyError`
"Exactly one of tref_in and fref_in should be specified.", spec:
`AmbiguousInputError`/`ConfigError`) precisely when both reference inputs or
neither are given; with exactly one given it proceeds (it may still fail
later, but never with this error).  The interpolation stages must succeed
for the check to be reached (the source performs them first), and the opaque
frequency-conversion machinery is assumed not to raise this error itself. -/
theorem c5_exactly_one_input {R : Type*} [Field R]
    (spl : List ℚ → List ℚ → ℚ → ℚ) (w : Wave) (p a : List ℕ) (s : ℚ → R)
    (ct : List ℚ → Except EccError (List ℚ × List ℚ))
    (trefIn frefIn : Option (List ℚ))
    (hct : ∀ fr, ct fr ≠ Except.error EccError.ambiguousInput)
    (hp : 2 ≤ (trim_extrema_idx w p).length)
    (ha : 2 ≤ (trim_extrema_idx w a).length) :
    measure_ecc spl w p a s ct trefIn frefIn
        = Except.error EccError.ambiguousInput
      ↔ trefIn.isSome = frefIn.isSome := by
  cases trefIn with
  | none =>
    cases frefIn with
    | none =>
      rw [measure_ecc_none_none spl w p a s ct hp ha]
      simp
    | some fr =>
      simp only [Option.isSome_none, Option.isSome_some]
      constructor
      · intro hh
        cases hctf : ct fr with
        | error e =>
          rw [measure_ecc_none_some_err spl w p a s ct fr e hp ha hctf] at hh
          have : e = EccError.ambiguousInput := by
            exact (Except.error.inj hh)
          exact absurd (this ▸ hctf) (hct fr)
        | ok pr =>
          rw [measure_ecc_none_some_ok spl w p a s ct fr pr.1 pr.2 hp ha
                (by rw [hctf])] at hh
          exact absurd hh (measure_ecc_on_tref_ne_ambiguous _ _ _ _ _ _ _)
      · intro hh
        exact absurd hh (by simp)
  | some tr =>
    cases frefIn with
    | none =>
      simp only [Option.isSome_none, Option.isSome_some]
      constructor
      · intro hh
        rw [measure_ecc_some_none spl w p a s ct tr hp ha] at hh
        exact absurd hh (measure_ecc_on_tref_ne_ambiguous _ _ _ _ _ _ _)
      · intro hh
        exact absurd hh (by simp)
    | some fr =>
      rw [measure_ecc_some_some spl w p a s ct tr fr hp ha]
      simp

/-- Claim C6: on the time-input path, a successful `measure_ecc` run retains
exactly the reference times in the half-open interval `[t_min, t_max)`,
where `t_min` is the later of the first periastron and first apastron times
and `t_max` the earlier of the last periastron and last apastron times over
the trimmed extrema; in particular a reference time equal to `t_max` is
always excluded. -/
theorem c6_tref_out_half_open {R : Type*} [Field R]
    (spl : List ℚ → List ℚ → ℚ → ℚ) (w : Wave) (p a : List ℕ) (s : ℚ → R)
    (ct : List ℚ → Except EccError (List ℚ × List ℚ)) (tr : List ℚ)
    (r : EccResult R)
    (h : measure_ecc spl w p a s ct (some tr) none = Except.ok r) :
    r.tref_out = tr.filter (fun x =>
        decide (x < t_max_of (trimmed_times w p) (trimmed_times w a)
                ∧ t_min_of (trimmed_times w p) (trimmed_times w a) ≤ x))
    ∧ t_max_of (trimmed_times w p) (trimmed_times w a) ∉ r.tref_out := by
  have hp : 2 ≤ (trim_extrema_idx w p).length := by
    by_contra hnp
    rw [measure_ecc_err_peaks spl w p a s ct (some tr) none hnp] at h
    exact absurd h (by simp)
  have ha : 2 ≤ (trim_extrema_idx w a).length := by
    by_contra hna
    rw [measure_ecc_err_troughs spl w p a s ct (some tr) none hp hna] at h
    exact absurd h (by simp)
  rw [measure_ecc_some_none spl w p a s ct tr hp ha,
      measure_ecc_on_tref_none_eq] at h
  have hd := measure_ecc_tail_ok h
  refine ⟨hd.1, fun hmem => ?_⟩
  rw [hd.1] at hmem
  exact absurd (mem_tref_filter hmem).1 (lt_irrefl _)

/-- getD of a mapped list below the length. -/
theorem getD_map_of_lt {A B : Type*} (f : A → B) (l : List A) (dA : A) (dB : B)
    {i : ℕ} (hi : i < l.length) :
    (l.map f).getD i dB = f (l.getD i dA) := by
  rw [List.getD_eq_getElem _ _ (by simpa using hi), List.getElem_map,
      List.getD_eq_getElem _ _ hi]

/-- getD below the length is a member. -/
theorem getD_mem_of_lt {l : List ℚ} {i : ℕ} (hi : i < l.length) :
    l.getD i 0 ∈ l := by
  rw [List.getD_eq_getElem _ _ hi]
  exact List.getElem_mem hi

/-- A nonempty bound interval `[t_min, t_max)` forces the periastron list to
be nonempty. -/
theorem t_peaks_ne_nil_of_bounds {t_peaks t_troughs : List ℚ} {x : ℚ}
    (h1 : x < t_max_of t_peaks t_troughs)
    (h2 : t_min_of t_peaks t_troughs ≤ x) : t_peaks ≠ [] := by
  intro hnil
  have ha : t_max_of t_peaks t_troughs ≤ 0 := by
    rw [t_max_of, hnil]
    exact min_le_of_left_le (le_of_eq rfl)
  have hb : (0 : ℚ) ≤ t_min_of t_peaks t_troughs := by
    rw [t_min_of, hnil]
    exact le_max_left _ _
  linarith

/-- Dissection of any successful `measure_ecc` run: the eccentricity list is
the formula applied to the two interpolants along `tref_out`, the mean
anomalies come from `compute_mean_ano` against the trimmed periastron times,
and every retained reference time lies in `[t_min, t_max)`. -/
theorem measure_ecc_ok_parts {R : Type*} [Field R]
    {spl : List ℚ → List ℚ → ℚ → ℚ} {w : Wave} {p a : List ℕ} {s : ℚ → R}
    {ct : List ℚ → Except EccError (List ℚ × List ℚ)}
    {trefIn frefIn : Option (List ℚ)} {r : EccResult R}
    (h : measure_ecc spl w p a s ct trefIn frefIn = Except.ok r) :
    r.ecc_ref = r.tref_out.map (fun x => ecc_formula s
        (spl (trimmed_times w p) (trimmed_omegas w p) x)
        (spl (trimmed_times w a) (trimmed_omegas w a) x))
    ∧ map_option (compute_mean_ano (trimmed_times w p)) r.tref_out
        = some r.mean_ano_ref
    ∧ (∀ x ∈ r.tref_out, x < t_max_of (trimmed_times w p) (trimmed_times w a)
          ∧ t_min_of (trimmed_times w p) (trimmed_times w a) ≤ x)
    ∧ r.tref_out ≠ [] := by
  have hp : 2 ≤ (trim_extrema_idx w p).length := by
    by_contra hnp
    rw [measure_ecc_err_peaks spl w p a s ct trefIn frefIn hnp] at h
    exact absurd h (by simp)
  have ha : 2 ≤ (trim_extrema_idx w a).length := by
    by_contra hna
    rw [measure_ecc_err_troughs spl w p a s ct trefIn frefIn hp hna] at h
    exact absurd h (by simp)
  have tail_case : ∀ tin fo,
      measure_ecc_tail s (spl (trimmed_times w p) (trimmed_omegas w p))
          (spl (trimmed_times w a) (trimmed_omegas w a))
          (trimmed_times w p) (trimmed_times w a) tin
          (tref_filter (trimmed_times w p) (trimmed_times w a) tin) fo
        = Except.ok r →
      r.ecc_ref = r.tref_out.map (fun x => ecc_formula s
          (spl (trimmed_times w p) (trimmed_omegas w p) x)
          (spl (trimmed_times w a) (trimmed_omegas w a) x))
      ∧ map_option (compute_mean_ano (trimmed_times w p)) r.tref_out
          = some r.mean_ano_ref
      ∧ (∀ x ∈ r.tref_out,
            x < t_max_of (trimmed_times w p) (trimmed_times w a)
            ∧ t_min_of (trimmed_times w p) (trimmed_times w a) ≤ x)
      ∧ r.tref_out ≠ [] := by
    intro tin fo htail
    have hd := measure_ecc_tail_ok htail
    refine ⟨?_, ?_, ?_, ?_⟩
    · rw [hd.2.2.1, hd.1]
    · rw [hd.1]
      exact hd.2.2.2.1
    · intro x hx
      rw [hd.1] at hx
      exact mem_tref_filter hx
    · rw [hd.1]
      exact hd.2.2.2.2
  cases trefIn with
  | some tr =>
    cases frefIn with
    | some fr =>
      rw [measure_ecc_some_some spl w p a s ct tr fr hp ha] at h
      exact absurd h (by simp)
    | none =>
      rw [measure_ecc_some_none spl w p a s ct tr hp ha,
          measure_ecc_on_tref_none_eq] at h
      exact tail_case tr none h
  | none =>
    cases frefIn with
    | none =>
      rw [measure_ecc_none_none spl w p a s ct hp ha] at h
      exact absurd h (by simp)
    | some fr =>
      cases hctf : ct fr with
      | error e =>
        rw [measure_ecc_none_some_err spl w p a s ct fr e hp ha hctf] at h
        exact absurd h (by simp)
      | ok pr =>
        rw [measure_ecc_none_some_ok spl w p a s ct fr pr.1 pr.2 hp ha
              (by rw [hctf]),
            measure_ecc_on_tref_some_eq] at h
        split_ifs at h
        exact tail_case pr.1 (some pr.2) h

/-- Claim C3: for every reference time retained by a successful
`measure_ecc` run with the square root instantiated as `Real.sqrt`, the
returned eccentricity equals
`(sqrt(omega_p) - sqrt(omega_a)) / (sqrt(omega_p) + sqrt(omega_a))`, where
`omega_p` and `omega_a` are the periastron and apastron interpolants
evaluated at that reference time. -/
theorem c3_ecc_from_interpolants
    (spl : List ℚ → List ℚ → ℚ → ℚ) (w : Wave) (p a : List ℕ)
    (ct : List ℚ → Except EccError (List ℚ × List ℚ))
    (trefIn frefIn : Option (List ℚ)) (r : EccResult ℝ)
    (h : measure_ecc spl w p a (fun q => Real.sqrt (q : ℝ)) ct trefIn frefIn
          = Except.ok r) :
    ∀ i, i < r.tref_out.length →
      r.ecc_ref.getD i 0 =
        (Real.sqrt (spl (trimmed_times w p) (trimmed_omegas w p)
                      (r.tref_out.getD i 0))
         - Real.sqrt (spl (trimmed_times w a) (trimmed_omegas w a)
                        (r.tref_out.getD i 0)))
        / (Real.sqrt (spl (trimmed_times w p) (trimmed_omegas w p)
                        (r.tref_out.getD i 0))
           + Real.sqrt (spl (trimmed_times w a) (trimmed_omegas w a)
                          (r.tref_out.getD i 0))) := by
  intro i hi
  have hparts := measure_ecc_ok_parts h
  rw [hparts.1, getD_map_of_lt _ _ 0 0 hi]
  rfl

/-- Claim C4: for every reference time `x` retained by a successful
`measure_ecc` run, the returned mean anomaly equals
`2 pi (x - t_p0) / (t_p1 - t_p0)` where `t_p0` is the most recent trimmed
periastron time at/before `x` (index maximal) and `t_p1` the next one; the
value always lies in `[0, 2 pi)` and vanishes exactly when `x` is a
periastron time.  The periastron times are assumed strictly increasing (true
for genuine extrema of a time-ordered waveform). -/
theorem c4_mean_anomaly {R : Type*} [Field R]
    (spl : List ℚ → List ℚ → ℚ → ℚ) (w : Wave) (p a : List ℕ) (s : ℚ → R)
    (ct : List ℚ → Except EccError (List ℚ × List ℚ))
    (trefIn frefIn : Option (List ℚ)) (r : EccResult R)
    (hsorted : (trimmed_times w p).Pairwise (· < ·))
    (h : measure_ecc spl w p a s ct trefIn frefIn = Except.ok r) :
    ∀ i, i < r.tref_out.length →
      ∃ j, j + 1 < (trimmed_times w p).length
        ∧ (trimmed_times w p).getD j 0 ≤ r.tref_out.getD i 0
        ∧ r.tref_out.getD i 0 < (trimmed_times w p).getD (j + 1) 0
        ∧ (∀ k, k < (trimmed_times w p).length →
              (trimmed_times w p).getD k 0 ≤ r.tref_out.getD i 0 → k ≤ j)
        ∧ r.mean_ano_ref.getD i 0
            = 2 * np_pi * (r.tref_out.getD i 0 - (trimmed_times w p).getD j 0)
              / ((trimmed_times w p).getD (j + 1) 0
                 - (trimmed_times w p).getD j 0)
        ∧ 0 ≤ r.mean_ano_ref.getD i 0
        ∧ r.mean_ano_ref.getD i 0 < 2 * np_pi
        ∧ (r.mean_ano_ref.getD i 0 = 0
            ↔ r.tref_out.getD i 0 ∈ trimmed_times w p) := by
  intro i hi
  have hparts := measure_ecc_ok_parts h
  set tP := trimmed_times w p with htP
  set x := r.tref_out.getD i 0 with hx
  have hxmem : x ∈ r.tref_out := getD_mem_of_lt hi
  have hbnd := hparts.2.2.1 x hxmem
  have hpne : tP ≠ [] := t_peaks_ne_nil_of_bounds hbnd.1 hbnd.2
  have h0 : tP.getD 0 0 ≤ x := le_trans (le_max_left _ _) hbnd.2
  have h1 : x < tP.getLastD 0 := lt_of_lt_of_le hbnd.1 (min_le_left _ _)
  rcases compute_mean_ano_spec hpne h0 h1 with
    ⟨j, hj1, hjle, hjlt, hjmax, hval⟩
  have hpoint := (map_option_eq_some_forall hparts.2.1).2 i hi
  rw [hval] at hpoint
  have hm : r.mean_ano_ref.getD i 0
      = 2 * np_pi * (x - tP.getD j 0)
        / (tP.getD (j + 1) 0 - tP.getD j 0) := (Option.some_inj.mp hpoint).symm
  have hden : (0 : ℚ) < tP.getD (j + 1) 0 - tP.getD j 0 := by
    have := lt_of_le_of_lt hjle hjlt
    linarith
  have h2pi : (0 : ℚ) < 2 * np_pi := by norm_num [np_pi]
  refine ⟨j, hj1, hjle, hjlt, hjmax, hm, ?_, ?_, ?_⟩
  · rw [hm]
    exact div_nonneg (mul_nonneg (le_of_lt h2pi) (by linarith)) (le_of_lt hden)
  · rw [hm, div_lt_iff₀ hden]
    exact mul_lt_mul_of_pos_left (by linarith) h2pi
  · rw [hm]
    constructor
    · intro hz
      rcases div_eq_zero_iff.mp hz with hnum | hd0
      · rcases mul_eq_zero.mp hnum with h2p | hsub
        · exact absurd h2p (by norm_num [np_pi])
        · have : x = tP.getD j 0 := by linarith [sub_eq_zero.mp hsub]
          rw [this]
          exact getD_mem_of_lt (by omega)
      · exact absurd hd0 (ne_of_gt hden)
    · intro hmem
      rcases List.mem_iff_getElem.mp hmem with ⟨k, hk, hkval⟩
      have hkD : tP.getD k 0 = x := by
        rw [List.getD_eq_getElem _ _ hk]
        exact hkval
      have hkle : k ≤ j := hjmax k hk (le_of_eq hkD)
      have hkj : k = j := by
        rcases Nat.lt_or_ge k j with hlt | hge
        · exfalso
          have hjlen : j < tP.length := by omega
          have hlt2 := (List.pairwise_iff_getElem.mp hsorted) k j hk hjlen hlt
          rw [hkval] at hlt2
          rw [List.getD_eq_getElem _ _ hjlen] at hjle
          exact absurd hjle (not_le.mpr hlt2)
        · omega
      rw [← hkj, hkD, sub_self, mul_zero, zero_div]

/-- Trivial frequency-conversion parameter used in witnesses. -/
def ctTriv : List ℚ → Except EccError (List ℚ × List ℚ) :=
  fun _ => Except.error EccError.emptyOutput

/-- Concrete successful run of `measure_ecc` over `ℚ` (identity square
root), used by witnesses. -/
theorem wPlain_run_rat :
    measure_ecc (R := ℚ) (fun _ _ x => x) wPlain [1, 3] [0, 2] (fun q => q)
        ctTriv (some [1]) none
      = Except.ok ⟨[1], none, [0], [0]⟩ := by
  have hp : 2 ≤ (trim_extrema_idx wPlain [1, 3]).length := by
    norm_num [trim_extrema_idx, wPlain]
  have ha : 2 ≤ (trim_extrema_idx wPlain [0, 2]).length := by
    norm_num [trim_extrema_idx, wPlain]
  rw [measure_ecc_some_none _ _ _ _ _ _ _ hp ha, measure_ecc_on_tref_none_eq]
  norm_num [measure_ecc_tail, tref_filter, t_min_of, t_max_of, trimmed_times,
    trimmed_omegas, trim_extrema_idx, wPlain, map_option, compute_mean_ano,
    idx_last_le, ecc_formula, List.filter, List.range_succ, List.getD,
    List.getLastD, Option.bind_eq_bind]

/-- Concrete successful run of `measure_ecc` over `ℝ` with `Real.sqrt`,
used by witnesses. -/
theorem wPlain_run_real :
    measure_ecc (fun _ _ x => x) wPlain [1, 3] [0, 2]
        (fun q => Real.sqrt (q : ℝ)) ctTriv (some [1]) none
      = Except.ok ⟨[1], none, [0], [0]⟩ := by
  have hp : 2 ≤ (trim_extrema_idx wPlain [1, 3]).length := by
    norm_num [trim_extrema_idx, wPlain]
  have ha : 2 ≤ (trim_extrema_idx wPlain [0, 2]).length := by
    norm_num [trim_extrema_idx, wPlain]
  rw [measure_ecc_some_none _ _ _ _ _ _ _ hp ha, measure_ecc_on_tref_none_eq]
  norm_num [measure_ecc_tail, tref_filter, t_min_of, t_max_of, trimmed_times,
    trimmed_omegas, trim_extrema_idx, wPlain, map_option, compute_mean_ano,
    idx_last_le, ecc_formula, List.filter, List.range_succ, List.getD,
    List.getLastD, Option.bind_eq_bind, Real.sqrt_one]

/-- Result record of the concrete `wPlain` runs. -/
def rPlain : EccResult ℚ := ⟨[1], none, [0], [0]⟩

/-- Result record of the concrete `wPlain` run over `ℝ`. -/
def rPlainR : EccResult ℝ := ⟨[1], none, [0], [0]⟩

/-- Witness for C3 at the concrete run: the single retained reference time
has eccentricity given by the square-root formula on the two interpolants. -/
theorem c3_witness :
    rPlainR.ecc_ref.getD 0 0
      = (Real.sqrt 1 - Real.sqrt 1) / (Real.sqrt 1 + Real.sqrt 1) := by
  have h3 := c3_ecc_from_interpolants (fun _ _ x => x) wPlain [1, 3] [0, 2]
    ctTriv (some [1]) none rPlainR wPlain_run_real 0 (by norm_num [rPlainR])
  simp [rPlainR] at h3
  simpa [rPlainR] using h3

/-- Witness for C4 at the concrete run. -/
theorem c4_witness :
    ∃ j, j + 1 < (trimmed_times wPlain [1, 3]).length
      ∧ (trimmed_times wPlain [1, 3]).getD j 0 ≤ rPlain.tref_out.getD 0 0
      ∧ rPlain.tref_out.getD 0 0 < (trimmed_times wPlain [1, 3]).getD (j + 1) 0
      ∧ (∀ k, k < (trimmed_times wPlain [1, 3]).length →
            (trimmed_times wPlain [1, 3]).getD k 0 ≤ rPlain.tref_out.getD 0 0
            → k ≤ j)
      ∧ rPlain.mean_ano_ref.getD 0 0
          = 2 * np_pi
            * (rPlain.tref_out.getD 0 0 - (trimmed_times wPlain [1, 3]).getD j 0)
            / ((trimmed_times wPlain [1, 3]).getD (j + 1) 0
               - (trimmed_times wPlain [1, 3]).getD j 0)
      ∧ 0 ≤ rPlain.mean_ano_ref.getD 0 0
      ∧ rPlain.mean_ano_ref.getD 0 0 < 2 * np_pi
      ∧ (rPlain.mean_ano_ref.getD 0 0 = 0
          ↔ rPlain.tref_out.getD 0 0 ∈ trimmed_times wPlain [1, 3]) :=
  c4_mean_anomaly (fun _ _ x => x) wPlain [1, 3] [0, 2] (fun q => q) ctTriv
    (some [1]) none rPlain
    (by norm_num [trimmed_times, trim_extrema_idx, wPlain, List.pairwise_cons])
    wPlain_run_rat 0 (by norm_num [rPlain])

/-- Witness for C5 at the concrete run: with both inputs given (and healthy
extrema) the run fails with exactly the mutual-exclusion error. -/
theorem c5_witness :
    (measure_ecc (R := ℚ) (fun _ _ x => x) wPlain [1, 3] [0, 2] (fun q => q)
        ctTriv (some [1]) (some [1]) = Except.error EccError.ambiguousInput
      ↔ (some [1] : Option (List ℚ)).isSome
          = (some [1] : Option (List ℚ)).isSome) :=
  c5_exactly_one_input (fun _ _ x => x) wPlain [1, 3] [0, 2] (fun q => q)
    ctTriv (some [1]) (some [1])
    (fun fr => by simp [ctTriv])
    (by norm_num [trim_extrema_idx, wPlain])
    (by norm_num [trim_extrema_idx, wPlain])

/-- Witness for C6 at the concrete run. -/
theorem c6_witness :
    rPlain.tref_out = [1].filter (fun x =>
        decide (x < t_max_of (trimmed_times wPlain [1, 3])
                      (trimmed_times wPlain [0, 2])
                ∧ t_min_of (trimmed_times wPlain [1, 3])
                      (trimmed_times wPlain [0, 2]) ≤ x))
    ∧ t_max_of (trimmed_times wPlain [1, 3]) (trimmed_times wPlain [0, 2])
        ∉ rPlain.tref_out :=
  c6_tref_out_half_open (fun _ _ x => x) wPlain [1, 3] [0, 2] (fun q => q)
    ctTriv [1] rPlain wPlain_run_rat

/-- Boolean strict-increase test agrees with the chain predicate. -/
theorem strict_incr_iff (l : List ℚ) :
    strict_incr l = true ↔ l.Chain' (· < ·) := by
  induction l with
  | nil => simp [strict_incr]
  | cons x xs ih =>
    cases xs with
    | nil => simp [strict_incr]
    | cons y ys =>
      rw [strict_incr, Bool.and_eq_true, decide_eq_true_eq, List.chain'_cons]
      exact and_congr Iff.rfl ih

/-- Claim C8: the orbital-average strategy fails (spec:
`NonMonotonicAverageError`) exactly when one of the two per-type averaged
frequency sequences is not strictly increasing; otherwise it returns the
trough and peak (midpoint-time, averaged-frequency) pairs merged into a
time-sorted sequence with the frequency values permuted consistently. -/
theorem c8_orbital_average (w : Wave) (pl al : List ℕ) :
    (compute_orbital_averaged_omega22_at_extrema w pl al
        = Except.error EccError.nonMonotonicAverage
      ↔ ¬ ((orbital_averaged_omega22 w pl).Chain' (· < ·)
           ∧ (orbital_averaged_omega22 w al).Chain' (· < ·)))
    ∧ ∀ ts ws, compute_orbital_averaged_omega22_at_extrema w pl al
          = Except.ok (ts, ws) →
        ts.Pairwise (· ≤ ·)
        ∧ (ts.zip ws).Perm
            ((mid_times w al).zip (orbital_averaged_omega22 w al)
              ++ (mid_times w pl).zip (orbital_averaged_omega22 w pl)) := by
  unfold compute_orbital_averaged_omega22_at_extrema
  by_cases hbp : strict_incr (orbital_averaged_omega22 w pl) = true
  · by_cases hba : strict_incr (orbital_averaged_omega22 w al) = true
    · rw [if_neg (by simpa using hbp), if_neg (by simpa using hba)]
      constructor
      · simp only [reduceCtorEq, false_iff, not_not]
        exact ⟨(strict_incr_iff _).mp hbp, (strict_incr_iff _).mp hba⟩
      · intro ts ws h
        have hpair := Except.ok.inj h
        injection hpair with hts hws
        subst hts
        subst hws
        constructor
        · exact List.pairwise_map.mpr (List.sorted_insertionSort by_time _)
        · have hzip : ((((mid_times w al ++ mid_times w pl).zip
              (orbital_averaged_omega22 w al
                ++ orbital_averaged_omega22 w pl)).insertionSort
                  by_time).map Prod.fst).zip
              ((((mid_times w al ++ mid_times w pl).zip
                (orbital_averaged_omega22 w al
                  ++ orbital_averaged_omega22 w pl)).insertionSort
                    by_time).map Prod.snd)
              = ((mid_times w al ++ mid_times w pl).zip
                (orbital_averaged_omega22 w al
                  ++ orbital_averaged_omega22 w pl)).insertionSort by_time := by
            rw [List.zip_map' Prod.fst Prod.snd]
            simp
          rw [hzip]
          have hlen : (mid_times w al).length
              = (orbital_averaged_omega22 w al).length := by
            simp [mid_times, orbital_averaged_omega22]
          have hstep : (((mid_times w al ++ mid_times w pl).zip
              (orbital_averaged_omega22 w al
                ++ orbital_averaged_omega22 w pl))).Perm
              ((mid_times w al).zip (orbital_averaged_omega22 w al)
                ++ (mid_times w pl).zip (orbital_averaged_omega22 w pl)) := by
            rw [List.zip_append hlen]
          exact (List.perm_insertionSort by_time _).trans hstep
    · rw [if_neg (by simpa using hbp), if_pos (by simpa using hba)]
      constructor
      · simp only [true_iff]
        intro hcon
        exact hba ((strict_incr_iff _).mpr hcon.2)
      · intro ts ws h
        exact absurd h (by simp)
  · rw [if_pos (by simpa using hbp)]
    constructor
    · simp only [true_iff]
      intro hcon
      exact hbp ((strict_incr_iff _).mpr hcon.1)
    · intro ts ws h
      exact absurd h (by simp)

/-- Concrete wave for the C8 witness. -/
def wC8 : Wave :=
  Wave.mk [0, 1, 2, 3, 4, 5] [0, 2, 4, 12, 20, 30] [0, 0, 0, 0, 0, 0] none

/-- Witness for C8 at a concrete wave: the merged sequence is time-sorted
and is a permutation of the per-type pairs. -/
theorem c8_witness :
    ([1, 2, 3, 4] : List ℚ).Pairwise (· ≤ ·)
    ∧ (([1, 2, 3, 4] : List ℚ).zip ([2, 5, 8, 9] : List ℚ)).Perm
        ((mid_times wC8 [1, 3, 5]).zip (orbital_averaged_omega22 wC8 [1, 3, 5])
          ++ (mid_times wC8 [0, 2, 4]).zip
              (orbital_averaged_omega22 wC8 [0, 2, 4])) :=
  (c8_orbital_average wC8 [0, 2, 4] [1, 3, 5]).2 [1, 2, 3, 4] [2, 5, 8, 9]
    (by norm_num [compute_orbital_averaged_omega22_at_extrema,
      orbital_averaged_omega22, mid_times, strict_incr, wC8, List.range_succ,
      List.getD, List.insertionSort, List.orderedInsert, by_time])

/-- Claim C9: when frequency input is given, the retained frequencies are
exactly those in `[fmin, fmax)` with `fmin`/`fmax` the first/last value of
the average-frequency curve divided by `2 pi`; a successful result is never
empty, and when nothing survives the call fails with the below-minimum or
above-maximum out-of-range error or the residual insufficient-extrema empty
error. -/
theorem c9_fref_out_filter (omega22_average fref_in : List ℚ) :
    (∀ r, get_fref_out omega22_average fref_in = Except.ok r →
        r = fref_in.filter (fun f =>
              decide (omega22_average.getD 0 0 / (2 * np_pi) ≤ f
                      ∧ f < omega22_average.getLastD 0 / (2 * np_pi)))
        ∧ r ≠ [])
    ∧ (fref_in.filter (fun f =>
          decide (omega22_average.getD 0 0 / (2 * np_pi) ≤ f
                  ∧ f < omega22_average.getLastD 0 / (2 * np_pi))) = [] →
        get_fref_out omega22_average fref_in
            = Except.error EccError.outOfRangeBelow
        ∨ get_fref_out omega22_average fref_in
            = Except.error EccError.outOfRangeAbove
        ∨ get_fref_out omega22_average fref_in
            = Except.error EccError.emptyOutput) := by
  unfold get_fref_out
  by_cases hfe : (fref_in.filter (fun f =>
      decide (omega22_average.getD 0 0 / (2 * np_pi) ≤ f
              ∧ f < omega22_average.getLastD 0 / (2 * np_pi)))).isEmpty
  · rw [if_pos hfe]
    constructor
    · intro r hr
      split_ifs at hr <;> exact absurd hr (by simp)
    · intro _
      split_ifs <;> simp
  · rw [if_neg hfe]
    constructor
    · intro r hr
      have := Except.ok.inj hr
      exact ⟨this.symm, this ▸ List.isEmpty_iff.not.mp hfe⟩
    · intro hnil
      exact absurd (List.isEmpty_iff.mpr hnil) hfe

/-- Witness for C9 at concrete data: the surviving frequency list is the
filter result and is nonempty. -/
theorem c9_witness :
    ([5] : List ℚ) = ([5] : List ℚ).filter (fun f =>
        decide (([2 * np_pi, 20 * np_pi] : List ℚ).getD 0 0 / (2 * np_pi) ≤ f
                ∧ f < ([2 * np_pi, 20 * np_pi] : List ℚ).getLastD 0
                      / (2 * np_pi)))
    ∧ ([5] : List ℚ) ≠ [] :=
  (c9_fref_out_filter [2 * np_pi, 20 * np_pi] [5]).1 [5]
    (by norm_num [get_fref_out, List.filter, np_pi])

/-! ## Claim C1: which amplitude feeds the merger-time fit -/

theorem real_sqrt_four : Real.sqrt 4 = 2 := by
  rw [show (4 : ℝ) = 2 ^ 2 by norm_num, Real.sqrt_sq (by norm_num)]

theorem real_sqrt_nine : Real.sqrt 9 = 3 := by
  rw [show (9 : ℝ) = 3 ^ 2 by norm_num, Real.sqrt_sq (by norm_num)]

theorem real_sqrt_twentyfive : Real.sqrt 25 = 5 := by
  rw [show (25 : ℝ) = 5 ^ 2 by norm_num, Real.sqrt_sq (by norm_num)]

/-- Time samples of the C1 counterexample. -/
def tC1 : List ℝ := [0, 1, 2, 3, 4]

/-- C1 counterexample (2,2) mode: real amplitudes 0,1,2,3,0. -/
def h22C1 : List (ℝ × ℝ) := [(0, 0), (1, 0), (2, 0), (3, 0), (0, 0)]

/-- C1 counterexample (3,3) mode: real amplitudes 0,0,0,4,0. -/
def h33C1 : List (ℝ × ℝ) := [(0, 0), (0, 0), (0, 0), (4, 0), (0, 0)]

/-- C1 counterexample mode dictionary with two modes. -/
def dC1 : List ((ℕ × ℕ) × List (ℝ × ℝ)) := [((2, 2), h22C1), ((3, 3), h33C1)]

/-- Claim C1 counterexample: on a dataDict with two modes, the time shift
applied by `eccDefinition.__init__` — the quadratic-fit peak time of the
(2,2) amplitude `np.abs(hlm[(2,2)])` alone — differs from the quadratic-fit
peak time of the combined multi-mode amplitude described by the spec.  The
(2,2) amplitude here is `[0,1,2,3,0]` (fit peak `11/4`) while the combined
amplitude is `[0,1,2,5,0]` (fit peak `23/8`). -/
theorem c1_counterexample :
    init_time_shift Real.sqrt tC1 dC1 ≠ spec_multimode_peak_time Real.sqrt tC1 dC1 := by
  have hm : mode_data dC1 2 2 = h22C1 := by
    norm_num [mode_data, dC1, List.find?]
  have hamp : mode_amp Real.sqrt h22C1 = [0, 1, 2, 3, 0] := by
    norm_num [mode_amp, h22C1, real_sqrt_four, real_sqrt_nine]
  have htot : total_amp Real.sqrt (dC1.map Prod.snd) = [0, 1, 2, 5, 0] := by
    norm_num [total_amp, dC1, h22C1, h33C1, List.range_succ, List.getD,
      real_sqrt_four, real_sqrt_twentyfive]
  have hpeak1 : get_peak_via_quadratic_fit tC1 ([0, 1, 2, 3, 0] : List ℝ)
      = 11 / 4 := by
    norm_num [get_peak_via_quadratic_fit, argmaxIdx, tC1, List.range_succ,
      List.getD]
  have hpeak2 : get_peak_via_quadratic_fit tC1 ([0, 1, 2, 5, 0] : List ℝ)
      = 23 / 8 := by
    norm_num [get_peak_via_quadratic_fit, argmaxIdx, tC1, List.range_succ,
      List.getD]
  unfold init_time_shift spec_multimode_peak_time
  rw [hm, hamp, htot, hpeak1, hpeak2]
  norm_num

/-- Claim C1 (amended): in `eccDefinition.__init__` the time array is
shifted so that merger is at t=0 where the merger time is found via a
quadratic fit around the global maximum of the (2,2) mode amplitude
`np.abs(hlm[(2,2)])` alone: each shifted time sample equals the original
sample minus the quadratic-fit peak time of the (2,2) amplitude. -/
theorem c1_init_shift_is_mode22_fit {F : Type*} [LinearOrderedField F]
    (s : F → F) (t : List F) (hlm : List ((ℕ × ℕ) × List (F × F))) :
    ∀ i, i < t.length →
      (init_shifted_t s t hlm).getD i 0
        = t.getD i 0
          - get_peak_via_quadratic_fit t (mode_amp s (mode_data hlm 2 2)) := by
  intro i hi
  unfold init_shifted_t
  rw [getD_map_of_lt _ _ 0 0 hi]
  rfl

/-- Witness for C1's amended theorem at the counterexample data. -/
theorem c1_witness :
    (init_shifted_t Real.sqrt tC1 dC1).getD 0 0
      = tC1.getD 0 0
        - get_peak_via_quadratic_fit tC1 (mode_amp Real.sqrt (mode_data dC1 2 2)) :=
  c1_init_shift_is_mode22_fit Real.sqrt tC1 dC1 0 (by norm_num [tC1])

end GwEcc
